import Mathlib

/-!
Verification development for the git-fixed-searcher reference-graph engine.

The definitions below are a shallow embedding of the Rust sources
`src/util.rs`, `src/ref_graph.rs` and `src/main.rs`:

* commit hashes (`git2::Oid`) are modelled as strings;
* commit records expose `id`, `summary` and `message` exactly as the
  `git2::Commit` accessors used by the code (the accessors are fallible,
  hence `Option`);
* the repository is modelled by its two lookup capabilities used in the
  code, `find_commit` and `find_commit_by_prefix` (the latter is named
  `find_commit_by_pref` here);
* the fixed regular expressions of `util.rs` are implemented as direct
  deterministic scanners with the leftmost-first matching semantics of the
  `regex` crate (for these patterns backtracking can never extend a match:
  the hash run `[0-9a-f]{8,}` is always the maximal hex run because the
  characters that may follow it are not hex digits, and the title run
  `[^\x22]+` always extends to the first quote);
* a Rust panic (`unwrap` on `None`) is modelled by returning `none`;
* `Vec` push/pop and index updates become list operations;
* the explicit-stack DFS loop of `RefGraph::dfs` is written with an
  explicit fuel bound; a theorem below shows the bound is never reached.
-/

/-- `RefType` from `util.rs`: `Note`, `Fix`, `Revert`, with the derived
`Ord` given by declaration order (`Note < Fix < Revert`). -/
inductive RefType where
  | Note : RefType
  | Fix : RefType
  | Revert : RefType
deriving DecidableEq, Repr

/-- The rank induced by the derived `Ord` on `RefType`. -/
def RefType.rank : RefType → Nat
  | RefType.Note => 0
  | RefType.Fix => 1
  | RefType.Revert => 2

/-- `std::cmp::max` on `RefType` (returns the second argument on ties). -/
def rmax (a b : RefType) : RefType :=
  if RefType.rank b < RefType.rank a then a else b

/-- Modelled from the spec: `RefType::should_follow` is called in
`RefGraph::dfs` (`ref_graph.rs` line 90) but its definition is not among the
provided sources.  Spec §4.4: `Fix` and `Revert` edges are always followed;
`Note` edges are followed only when notes are included, i.e. when
`no_notices` is false. -/
def RefType.should_follow (t : RefType) (no_notices : Bool) : Bool :=
  match t with
  | RefType.Note => !no_notices
  | RefType.Fix => true
  | RefType.Revert => true

/-- A commit hash (`git2::Oid`). -/
abbrev Oid := String

/-- The parts of `git2::Commit` the program reads: its id, its summary
(first line) and its full message.  `summary()` and `message()` are
fallible in git2 (e.g. on non-UTF-8 text), hence `Option`. -/
structure CommitData where
  id : Oid
  summary : Option String
  message : Option String
deriving DecidableEq, Repr

/-- The two repository lookups the program uses: `Repository::find_commit`
and `Repository::find_commit_by_prefix` (named `find_commit_by_pref`
here).  Both are fallible. -/
structure Repo where
  find_commit : Oid → Option CommitData
  find_commit_by_pref : String → Option CommitData

/-- `RefEntry` from `util.rs`. -/
structure RefEntry where
  hash : String
  title : String
  ref_type : RefType
deriving DecidableEq, Repr

/-- The character class `[0-9a-f]` of the extraction regexes. -/
def isHexDigit (c : Char) : Bool :=
  (decide ('0' ≤ c) && decide (c ≤ '9')) || (decide ('a' ≤ c) && decide (c ≤ 'f'))

/-- The `\x22[^\x22]+\x22\)` tail of `commit_ref_regex`, applied after
`(\x22` has been consumed: the title is the maximal nonempty run of
non-quote characters and must be followed by `\x22)`. -/
def matchTail (h r2 : List Char) : Option (List Char × List Char × List Char) :=
  let t := r2.takeWhile (fun c => c ≠ '"')
  let r3 := r2.dropWhile (fun c => c ≠ '"')
  if t.isEmpty then none else
  match r3 with
  | '"' :: ')' :: r4 => some (h, t, r4)
  | _ => none

/-- Matcher for the core `[0-9a-f]{8,} ?\(\x22[^\x22]+\x22\)` of
`commit_ref_regex`, anchored at the head of `s`.  Returns the hash run,
the title and the unconsumed rest.  The hash run is the maximal hex run
(backtracking cannot produce another match, see the header comment), and
the optional space is taken when present. -/
def matchCore (s : List Char) : Option (List Char × List Char × List Char) :=
  let h := s.takeWhile isHexDigit
  let r1 := s.dropWhile isHexDigit
  if h.length < 8 then none else
  match r1 with
  | ' ' :: '(' :: '"' :: r2 => matchTail h r2
  | '(' :: '"' :: r2 => matchTail h r2
  | _ => none

/-- Matcher for the full `commit_ref_regex`
`(Fixes: )?[0-9a-f]{8,} ?\(\x22[^\x22]+\x22\)` anchored at the head of
`s`; leftmost-first semantics prefer the optional `Fixes: ` group when it
is present.  Returns whether the group matched, the hash, the title and
the unconsumed rest. -/
def matchRef (s : List Char) : Option (Bool × List Char × List Char × List Char) :=
  if "Fixes: ".data.isPrefixOf s then
    match matchCore (s.drop 7) with
    | some (h, t, r) => some (true, h, t, r)
    | none => (matchCore s).map (fun x => (false, x.1, x.2.1, x.2.2))
  else
    (matchCore s).map (fun x => (false, x.1, x.2.1, x.2.2))

/-- One step of `commit_ref_regex.captures_iter`: successive leftmost
non-overlapping matches, scanned with explicit fuel (each step strictly
shrinks the text, so `s.length + 1` fuel always suffices; see
`scanRefsAux_congr`). -/
def scanRefsAux : Nat → List Char → List RefEntry
  | 0, _ => []
  | fuel + 1, s =>
    match matchRef s with
    | some (f, h, t, r) =>
      { hash := String.mk h, title := String.mk t,
        ref_type := if f then RefType.Fix else RefType.Note } :: scanRefsAux fuel r
    | none =>
      match s with
      | [] => []
      | _ :: tail => scanRefsAux fuel tail

/-- `commit_ref_regex.captures_iter` over the whole text, mapped to
`RefEntry` as in `extract_references`. -/
def scanRefs (s : List Char) : List RefEntry :=
  scanRefsAux (s.length + 1) s

/-- `message.replace("\n", " ")` from `extract_references`. -/
def flattenMsg (msg : String) : String :=
  String.mk (msg.data.map (fun c => if c = '\n' then ' ' else c))

/-- Leftmost capture of `revert_header` = `Revert \x22([^\x22]+)\x22`:
scan for the literal `Revert \x22`, then take the maximal nonempty
non-quote run, which must be followed by a quote. -/
def captureRevertTitle : List Char → Option (List Char)
  | [] => none
  | s@(_ :: tail) =>
    if "Revert \"".data.isPrefixOf s then
      let r := s.drop 8
      let t := r.takeWhile (fun c => c ≠ '"')
      let r2 := r.dropWhile (fun c => c ≠ '"')
      if t.isEmpty then captureRevertTitle tail
      else
        match r2 with
        | '"' :: _ => some t
        | _ => captureRevertTitle tail
    else captureRevertTitle tail

/-- Leftmost capture of `revert_hash` = `This reverts commit ([0-9a-f]+)`. -/
def captureRevertHash : List Char → Option (List Char)
  | [] => none
  | s@(_ :: tail) =>
    if "This reverts commit ".data.isPrefixOf s then
      let h := (s.drop 20).takeWhile isHexDigit
      if h.isEmpty then captureRevertHash tail else some h
    else captureRevertHash tail

/-- `extract_revert` from `util.rs`: needs a summary matching
`revert_header` and a message matching `revert_hash`; both accessors are
fallible and failure yields no mention. -/
def extract_revert (commit : CommitData) : Option RefEntry := do
  let summ ← commit.summary
  let title ← captureRevertTitle summ.data
  let msg ← commit.message
  let hash ← captureRevertHash msg.data
  some { hash := String.mk hash, title := String.mk title, ref_type := RefType.Revert }

/-- `extract_references` from `util.rs`: `commit.message().unwrap()` (a
panic when the message is unavailable, modelled as `none`), newlines
flattened to spaces, all `commit_ref_regex` captures in order, chained
with the optional revert mention. -/
def extract_references (commit : CommitData) : Option (List RefEntry) :=
  match commit.message with
  | none => none
  | some msg => some (scanRefs (flattenMsg msg).data ++ (extract_revert commit).toList)

/-- `get_commit_by_ref_entry` from `util.rs`: prefix lookup of the
mention's hash; the second component records whether the title-mismatch
warning fires (`summary` missing or different from the recorded title).
The warning is log-only: the resolution result is the lookup result. -/
def get_commit_by_ref_entry (repo : Repo) (ref_entry : RefEntry) :
    Option CommitData × Bool :=
  match repo.find_commit_by_pref ref_entry.hash with
  | none => (none, false)
  | some commit =>
    (some commit,
      match commit.summary with
      | none => true
      | some s => decide (ref_entry.title ≠ s))

/-- `RefGraph` from `ref_graph.rs`: reverse adjacency (for each target
index, the list of `(source, type)` pairs), the hash-to-id map (modelled
as an association list, most recent insertion first), the id-to-hash
vector, and the shared DFS scratch state `flag`/`visited`. -/
structure RefGraph where
  referenced_by : List (List (Nat × RefType))
  hash_to_id : List (Oid × Nat)
  id_to_hash : List Oid
  flag : Nat
  visited : List Nat
deriving DecidableEq, Repr

/-- `RefGraph::lookup`. -/
def RefGraph.lookup (g : RefGraph) (oid : Oid) : Option Nat :=
  List.lookup oid g.hash_to_id

/-- `RefGraph::lookup_or_alloc`: returns the updated graph and the index
(the graph is unchanged when the hash is already known). -/
def RefGraph.lookup_or_alloc (g : RefGraph) (oid : Oid) : RefGraph × Nat :=
  match g.lookup oid with
  | some id => (g, id)
  | none =>
    let id := g.id_to_hash.length
    ({ referenced_by := g.referenced_by ++ [[]],
       hash_to_id := (oid, id) :: g.hash_to_id,
       id_to_hash := g.id_to_hash ++ [oid],
       flag := g.flag,
       visited := g.visited ++ [0] }, id)

/-- The `added_edges` dedup step of `RefGraph::new` (lines 47-53): find
the first recorded pair with this target and raise its type with
`std::cmp::max`, otherwise append the pair. -/
def addMention : List (Nat × RefType) → Nat → RefType → List (Nat × RefType)
  | [], u, t => [(u, t)]
  | p :: rest, u, t =>
    if p.1 = u then (p.1, rmax p.2 t) :: rest else p :: addMention rest u t

/-- The per-commit mention loop of `RefGraph::new` (lines 29-54): resolve
each extracted mention via `get_commit_by_ref_entry` (a failed lookup is
logged and skipped), look the resolved id up in the graph (an unobserved
target is logged and skipped), and fold the surviving pairs through the
`added_edges` dedup. -/
def collectEdges (repo : Repo) (g : RefGraph) (entries : List RefEntry) :
    List (Nat × RefType) :=
  entries.foldl
    (fun added e =>
      match (get_commit_by_ref_entry repo e).1 with
      | none => added
      | some c =>
        match g.lookup c.id with
        | none => added
        | some rid => addMention added rid e.ref_type)
    []

/-- The resolution pipeline of the same loop without the dedup: the list
of `(target index, type)` pairs that survive both lookups, in order. -/
def resolveEntries (repo : Repo) (g : RefGraph) (entries : List RefEntry) :
    List (Nat × RefType) :=
  entries.filterMap
    (fun e =>
      match (get_commit_by_ref_entry repo e).1 with
      | none => none
      | some c =>
        match g.lookup c.id with
        | none => none
        | some rid => some (rid, e.ref_type))

/-- In-place update of one position of a list (out-of-range indices are
untouched; in the program the index is always in range). -/
def listModify : List α → Nat → (α → α) → List α
  | [], _, _ => []
  | a :: l, 0, f => f a :: l
  | a :: l, n + 1, f => a :: listModify l n f

/-- The edge insertion loop of `RefGraph::new` (lines 55-58):
`referenced_by[ref_id].push((id, t))` for each deduplicated pair. -/
def pushEdges (g : RefGraph) (id : Nat) (added : List (Nat × RefType)) : RefGraph :=
  { g with
    referenced_by :=
      added.foldl
        (fun rb p => listModify rb p.1 (fun l => l ++ [(id, p.2)]))
        g.referenced_by }

/-- One iteration of the ingestion loop of `RefGraph::new` for a single
walked commit: allocate the commit's index, load the commit
(`find_commit(..).unwrap()`, a panic modelled as `none`), extract its
references (`extract_references` panics when the message is unavailable),
dedup and insert the edges. -/
def ingestCommit (repo : Repo) (g : RefGraph) (oid : Oid) : Option RefGraph :=
  let ga := g.lookup_or_alloc oid
  match repo.find_commit oid with
  | none => none
  | some commit =>
    match extract_references commit with
    | none => none
    | some entries => some (pushEdges ga.1 ga.2 (collectEdges repo ga.1 entries))

/-- The freshly constructed graph of `RefGraph::new` before ingestion. -/
def RefGraph.empty : RefGraph :=
  { referenced_by := [], hash_to_id := [], id_to_hash := [], flag := 0, visited := [] }

/-- `RefGraph::new`: the walker's items are `Result<Oid, Error>`; `flatten`
keeps the successful ones (modelled as `Option`), and each commit is
ingested in walk order. -/
def RefGraph.new (repo : Repo) (commits : List (Option Oid)) : Option RefGraph :=
  (commits.filterMap id).foldlM (fun g oid => ingestCommit repo g oid) RefGraph.empty

/-- The inner neighbor loop of `RefGraph::dfs` (lines 89-96): for each
reverse-adjacency pair `(u, t)` of the popped node, when `u` is unvisited
in this epoch and the type passes the filter, push `u`, record it in the
result and mark it. -/
def processEdges (nn : Bool) (flag : Nat) :
    List (Nat × RefType) → List Nat → List Nat → List Nat →
    List Nat × List Nat × List Nat
  | [], stack, visited, result => (stack, visited, result)
  | (u, t) :: es, stack, visited, result =>
    if visited.getD u 0 ≠ flag ∧ t.should_follow nn = true then
      processEdges nn flag es (u :: stack) (visited.set u flag) (result ++ [u])
    else
      processEdges nn flag es stack visited result

/-- The `while let Some(v) = dfs.pop()` loop of `RefGraph::dfs`, with an
explicit fuel bound; `none` means the fuel ran out with a nonempty stack
(shown below never to happen for well-formed graphs). -/
def dfsLoop (adj : List (List (Nat × RefType))) (nn : Bool) (flag : Nat) :
    Nat → List Nat → List Nat → List Nat → Option (List Nat × List Nat)
  | _, [], visited, result => some (result, visited)
  | 0, _ :: _, _, _ => none
  | fuel + 1, v :: rest, visited, result =>
    match processEdges nn flag (adj.getD v []) rest visited result with
    | (stack, visited, result) => dfsLoop adj nn flag fuel stack visited result

/-- `RefGraph::dfs` (lines 79-99): bump the epoch, mark the start node,
run the explicit-stack loop, and return the result list together with the
updated scratch state. -/
def RefGraph.dfs (g : RefGraph) (v : Nat) (nn : Bool) :
    Option (List Nat × RefGraph) :=
  let flag := g.flag + 1
  let visited := g.visited.set v flag
  match dfsLoop g.referenced_by nn flag (2 * g.referenced_by.length + 2) [v] visited [] with
  | none => none
  | some (result, visited) =>
    some (result, { g with flag := flag, visited := visited })

/-- The edge relation the DFS follows: from `a` to each recorded source
`b` of `a` whose type passes the filter. -/
def stepRel (adj : List (List (Nat × RefType))) (nn : Bool) (a b : Nat) : Prop :=
  ∃ t : RefType, (b, t) ∈ adj.getD a [] ∧ t.should_follow nn = true

/-- Well-formedness a graph needs for a query: the scratch array covers
the nodes, every recorded source is a node, and no stored epoch exceeds
the global epoch counter. -/
def QueryWf (g : RefGraph) : Prop :=
  g.visited.length = g.referenced_by.length ∧
  (∀ l ∈ g.referenced_by, ∀ p ∈ l, p.1 < g.referenced_by.length) ∧
  (∀ x ∈ g.visited, x ≤ g.flag)

/-- Invariants of a freshly ingested graph. -/
def BuiltWf (g : RefGraph) : Prop :=
  g.referenced_by.length = g.id_to_hash.length ∧
  g.visited.length = g.id_to_hash.length ∧
  g.flag = 0 ∧
  (∀ x ∈ g.visited, x = 0) ∧
  (∀ l ∈ g.referenced_by, ∀ p ∈ l, p.1 < g.id_to_hash.length) ∧
  (∀ oid i, g.lookup oid = some i → i < g.id_to_hash.length) ∧
  (∀ oid, (g.lookup oid).isSome ↔ oid ∈ g.id_to_hash)

/-- Matcher for `config_hash_and_msg` =
`([0-9a-f]{8,}) ?\(\x22([^\x22]+)\x22\)\x22` anchored at the head: the
core reference pattern followed by a literal extra quote (the trailing
quote is present in the source pattern). -/
def configCoreAt (s : List Char) : Option (List Char × List Char) :=
  match matchCore s with
  | some (h, t, r) =>
    match r with
    | '"' :: _ => some (h, t)
    | _ => none
  | none => none

/-- Leftmost `config_hash_and_msg` capture anywhere in the line. -/
def configHashMsgFind : List Char → Option (List Char × List Char)
  | [] => none
  | s@(_ :: tail) =>
    match configCoreAt s with
    | some ht => some ht
    | none => configHashMsgFind tail

/-- `config_hash.is_match(line)`: the unanchored pattern `[0-9a-f]{8,}`
matches somewhere in the line. -/
def containsHexRun8 : List Char → Bool
  | [] => false
  | s@(_ :: tail) =>
    decide (8 ≤ (s.takeWhile isHexDigit).length) || containsHexRun8 tail

/-- `str::contains`: `needle` occurs contiguously in `hay`. -/
def listContains (hay needle : List Char) : Bool :=
  if needle.isPrefixOf hay then true
  else
    match hay with
    | [] => false
    | _ :: t => listContains t needle

/-- `str::contains` on strings. -/
def strContains (hay needle : String) : Bool :=
  listContains hay.data needle.data

/-- `check_commit_titles` from `util.rs` (the `verbose` flag only selects
logging and is omitted): equal titles match, containment in either
direction matches. -/
def check_commit_titles (real_title got_title : String) : Bool :=
  if real_title = got_title then true
  else if strContains got_title real_title || strContains real_title got_title then true
  else false

/-- `parse_commit_description` from `util.rs`.  The `title_mapping`
parameter is the precomputed exact-title map built by the caller
(`main.rs::read_commits`); an index it returns is in range for the
caller's list, so the source's panicking index is modelled with `get?`.
The title check in the first branch is log-only and does not affect the
result. -/
def parse_commit_description (repo : Repo) (commit_list : List CommitData)
    (title_mapping : String → Option Nat) (line : String) : Option CommitData :=
  match configHashMsgFind line.data with
  | some ht =>
    match repo.find_commit_by_pref (String.mk ht.1) with
    | some commit => some commit
    | none => none
  | none =>
    if containsHexRun8 line.data then
      repo.find_commit_by_pref line
    else
      match title_mapping line with
      | some idx => commit_list.get? idx
      | none =>
        commit_list.find?
          (fun commit =>
            match commit.summary with
            | some s => check_commit_titles s line || check_commit_titles line s
            | none => false)

/-- Position `i` of `s` is immediately preceded by the label `Fixes: `. -/
def fixLabelBefore (s : List Char) (i : Nat) : Prop :=
  7 ≤ i ∧ "Fixes: ".data.isPrefixOf (s.drop (i - 7)) = true

/-- Invariant of the explicit-stack DFS loop: `flag` is the current epoch,
`v` the start node, and a node is marked iff its stored epoch equals
`flag`.  Marked nodes are exactly `v` plus the result list, stack entries
are marked, fully processed (marked, off-stack) nodes have all their
filtered successors marked, and every marked node is reachable. -/
structure LoopInv (adj : List (List (Nat × RefType))) (nn : Bool) (flag v : Nat)
    (stack visited result : List Nat) : Prop where
  hlen : visited.length = adj.length
  hflag : 1 ≤ flag
  hmark : ∀ u, visited.getD u 0 = flag ↔ (u = v ∨ u ∈ result)
  hnodup : result.Nodup
  hstart : v ∉ result
  hstack : ∀ w ∈ stack, visited.getD w 0 = flag
  hclosed : ∀ a, visited.getD a 0 = flag → a ∉ stack →
    ∀ p ∈ adj.getD a [], RefType.should_follow p.2 nn = true →
      visited.getD p.1 0 = flag
  hreach : ∀ u, visited.getD u 0 = flag →
    Relation.ReflTransGen (stepRel adj nn) v u

/-- Example repository for exercising a full ingestion: commit B fixes
commit A, both walked. -/
def exRepoAB : Repo :=
  { find_commit := fun o =>
      if o = "aaaaaaaa11" then some ⟨"aaaaaaaa11", some "Title A", some "first"⟩
      else if o = "bbbbbbbb22" then
        some ⟨"bbbbbbbb22", some "Title B", some "Fixes: aaaaaaaa11 (\"Title A\")"⟩
      else none,
    find_commit_by_pref := fun s =>
      if s = "aaaaaaaa11" then some ⟨"aaaaaaaa11", some "Title A", some "first"⟩
      else none }

/-- The walk feeding `exRepoAB`: A then B, oldest first. -/
def exCommitsAB : List (Option Oid) := [some "aaaaaaaa11", some "bbbbbbbb22"]

/-- The graph `RefGraph::new` builds from `exRepoAB` / `exCommitsAB`. -/
def exGraphAB : RefGraph :=
  { referenced_by := [[(1, RefType.Fix)], []],
    hash_to_id := [("bbbbbbbb22", 1), ("aaaaaaaa11", 0)],
    id_to_hash := ["aaaaaaaa11", "bbbbbbbb22"],
    flag := 0,
    visited := [0, 0] }

/-- Example graph with a single already observed commit, for exercising a
single ingestion step. -/
def exGraphA : RefGraph :=
  { referenced_by := [[]],
    hash_to_id := [("aaaaaaaa11", 0)],
    id_to_hash := ["aaaaaaaa11"],
    flag := 0,
    visited := [0] }

/-- Example repository where commit B mentions A twice, once as a bare
note and once under a `Fixes:` label. -/
def exRepoDup : Repo :=
  { find_commit := fun o =>
      if o = "bbbbbbbb22" then
        some ⟨"bbbbbbbb22", some "Title B",
          some "aaaaaaaa11 (\"Title A\") Fixes: aaaaaaaa11 (\"Title A\")"⟩
      else none,
    find_commit_by_pref := fun s =>
      if s = "aaaaaaaa11" then some ⟨"aaaaaaaa11", some "Title A", some "x"⟩
      else none }

/-- Example repository where the only walked commit B references a hash
that resolves in the repository but was never walked. -/
def exRepoGhost : Repo :=
  { find_commit := fun o =>
      if o = "bbbbbbbb22" then
        some ⟨"bbbbbbbb22", some "Title B", some "Fixes: ffffffff99 (\"Ghost\")"⟩
      else none,
    find_commit_by_pref := fun s =>
      if s = "ffffffff99" then some ⟨"ffffffff99", some "Ghost", some "g"⟩
      else none }

/-- Repository for the description-matcher examples: the prefix lookup
knows exactly the hash `abcd1234`. -/
def exRepoC4 : Repo :=
  { find_commit := fun _ => none,
    find_commit_by_pref := fun s =>
      if s = "abcd1234" then some ⟨"abcd1234ffff", some "title", some "m"⟩
      else none }

/-- A commit whose exact summary will be fed to the description matcher. -/
def exCommitC5 : CommitData :=
  ⟨"cafecafe11", some "fix deadbeef1234 in driver", some "m"⟩

/-- The exact-title map the check workflow builds over `[exCommitC5]`. -/
def exMapC5 : String → Option Nat :=
  fun s => if s = "fix deadbeef1234 in driver" then some 0 else none

/-- A repository with no prefix-resolvable hashes. -/
def exRepoNone : Repo :=
  { find_commit := fun _ => none, find_commit_by_pref := fun _ => none }

/-- A two-node graph whose only edge is a `Note`, to separate the two
filter settings. -/
def exGraphNote : RefGraph :=
  { referenced_by := [[(1, RefType.Note)], []],
    hash_to_id := [],
    id_to_hash := ["a", "b"],
    flag := 0,
    visited := [0, 0] }

/-- A two-node graph whose reverse adjacency is a cycle. -/
def exGraphCycle : RefGraph :=
  { referenced_by := [[(1, RefType.Fix)], [(0, RefType.Fix)]],
    hash_to_id := [],
    id_to_hash := ["a", "b"],
    flag := 0,
    visited := [0, 0] }

/-- A commit whose message contains overlapping candidate reference
substrings: the hex run of length 9 contains a second candidate of
length 8 starting one character later. -/
def exCommitOverlap : CommitData :=
  ⟨"cccccccc33", some "s", some "123456789 (\"t\")"⟩

/-- A commit with a single labelled mention, for exercising the
extractor's positive direction. -/
def exCommitFixes : CommitData :=
  ⟨"dddddddd44", some "x", some "Fixes: aaaaaaaa11 (\"T\")"⟩

/-- A mention whose recorded title disagrees with the resolved commit. -/
def exEntryMismatch : RefEntry := ⟨"aabbccdd", "wrong title", RefType.Note⟩

/-- Repository resolving `exEntryMismatch`'s hash to a commit whose
summary differs from the recorded title. -/
def exRepoMismatch : Repo :=
  { find_commit := fun _ => none,
    find_commit_by_pref := fun s =>
      if s = "aabbccdd" then some ⟨"aabbccdd0000", some "real title", some "m"⟩
      else none }

/-- A commit whose message accessor yields nothing. -/
def exCommitNoMsg : CommitData := ⟨"eeeeeeee55", some "Revert \"T\"", none⟩

/-- Claim C10: when the message accessor yields nothing,
`extract_references` fails (the source panics on `unwrap`), while
`extract_revert` returns no mention. -/
theorem c10_extract_partiality (c : CommitData) (h : c.message = none) :
    extract_references c = none ∧ extract_revert c = none := by
  constructor
  · simp [extract_references, h]
  · unfold extract_revert
    cases hs : c.summary with
    | none => rfl
    | some s =>
      cases ht : captureRevertTitle s.data with
      | none => simp [hs, ht]
      | some t => simp [hs, ht, h]

/-- Witness for C10 at a concrete commit without a message. -/
theorem c10_extract_partiality_witness :
    exCommitNoMsg.message = none ∧
    (extract_references exCommitNoMsg = none ∧ extract_revert exCommitNoMsg = none) :=
  ⟨rfl, c10_extract_partiality exCommitNoMsg rfl⟩

/-- Claim C8: whenever the prefix lookup of a mention's hash resolves to a
commit, the resolver returns that commit, whatever the mention's recorded
title and whatever the commit's summary; a title mismatch only sets the
warning flag. -/
theorem c8_resolution_ignores_title (repo : Repo) (e : RefEntry) (c : CommitData)
    (h : repo.find_commit_by_pref e.hash = some c) :
    (get_commit_by_ref_entry repo e).1 = some c := by
  simp [get_commit_by_ref_entry, h]

/-- Witness for C8: the hash resolves, the recorded title disagrees with
the resolved summary, the warning fires, and the commit is still
returned. -/
theorem c8_resolution_ignores_title_witness :
    exRepoMismatch.find_commit_by_pref exEntryMismatch.hash =
      some ⟨"aabbccdd0000", some "real title", some "m"⟩ ∧
    (get_commit_by_ref_entry exRepoMismatch exEntryMismatch).1 =
      some ⟨"aabbccdd0000", some "real title", some "m"⟩ ∧
    (get_commit_by_ref_entry exRepoMismatch exEntryMismatch).2 = true :=
  ⟨by decide,
   c8_resolution_ignores_title exRepoMismatch exEntryMismatch _ (by decide),
   by decide⟩

/-- Claim C4 (code bug): the `config_hash_and_msg` pattern carries a stray
trailing quote, so a line of the exact shape `hash ("title")` is not
matched by the first branch; it falls into the contains-hex branch, the
whole line is passed to the prefix lookup, and resolution fails even
though the hash alone resolves.  Only a line with a trailing quote after
the parenthesis takes the intended branch. -/
theorem c4_eval_stray_quote :
    exRepoC4.find_commit_by_pref "abcd1234" =
      some ⟨"abcd1234ffff", some "title", some "m"⟩ ∧
    parse_commit_description exRepoC4 [] (fun _ => none) "abcd1234 (\"title\")" = none ∧
    parse_commit_description exRepoC4 [] (fun _ => none) "abcd1234 (\"title\")\"" =
      some ⟨"abcd1234ffff", some "title", some "m"⟩ := by
  refine ⟨by decide, by decide, by decide⟩

/-- Claim C5 (code bug): `config_hash.is_match` is unanchored, so a line
that merely contains a hex run of length 8 takes the hash branch: the
whole line is passed to the prefix lookup and the title fallback is never
reached, even though the exact-title map knows the line. -/
theorem c5_eval_contained_hex_swallows_title :
    containsHexRun8 "fix deadbeef1234 in driver".data = true ∧
    exMapC5 "fix deadbeef1234 in driver" = some 0 ∧
    exCommitC5.summary = some "fix deadbeef1234 in driver" ∧
    parse_commit_description exRepoNone [exCommitC5] exMapC5
      "fix deadbeef1234 in driver" = none := by
  refine ⟨by decide, by decide, by decide, by decide⟩

theorem getD_set_self (V : List Nat) (u x : Nat) (h : u < V.length) :
    (V.set u x).getD u 0 = x := by
  simp [List.getD_eq_getElem?_getD, List.getElem?_set_self h]

theorem getD_set_ne (V : List Nat) (u w x : Nat) (h : u ≠ w) :
    (V.set u x).getD w 0 = V.getD w 0 := by
  simp [List.getD_eq_getElem?_getD, List.getElem?_set_ne h]

theorem getD_lt_of_eq_pos (V : List Nat) (u flag : Nat) (h1 : 1 ≤ flag)
    (h : V.getD u 0 = flag) : u < V.length := by
  by_contra hc
  push_neg at hc
  rw [List.getD_eq_getElem?_getD, List.getElem?_eq_none (by omega)] at h
  simp at h
  omega

theorem countP_set_mark (flag : Nat) :
    ∀ (V : List Nat) (u : Nat), u < V.length → V.getD u 0 ≠ flag →
      (V.set u flag).countP (fun x => decide (x ≠ flag)) + 1 =
        V.countP (fun x => decide (x ≠ flag)) := by
  intro V
  induction V with
  | nil => intro u hu; simp at hu
  | cons a l ih =>
    intro u hu hne
    cases u with
    | zero =>
      simp only [List.getD_cons_zero] at hne
      simp [List.set, List.countP_cons, hne]
    | succ n =>
      simp only [List.getD_cons_succ] at hne
      have := ih n (by simpa using hu) hne
      simp only [List.set, List.countP_cons]
      omega

theorem processEdges_spec (nn : Bool) (flag : Nat) :
    ∀ (es : List (Nat × RefType)) (stack V result : List Nat),
      (∀ p ∈ es, p.1 < V.length) →
      ∃ δ : List Nat,
        (processEdges nn flag es stack V result).1 = δ.reverse ++ stack ∧
        (processEdges nn flag es stack V result).2.2 = result ++ δ ∧
        (processEdges nn flag es stack V result).2.1.length = V.length ∧
        (∀ u, (processEdges nn flag es stack V result).2.1.getD u 0 = flag ↔
          (V.getD u 0 = flag ∨ u ∈ δ)) ∧
        δ.Nodup ∧
        (∀ u ∈ δ, V.getD u 0 ≠ flag ∧
          ∃ t : RefType, (u, t) ∈ es ∧ t.should_follow nn = true) ∧
        (∀ p ∈ es, RefType.should_follow p.2 nn = true →
          (processEdges nn flag es stack V result).2.1.getD p.1 0 = flag) ∧
        (processEdges nn flag es stack V result).2.1.countP (fun x => decide (x ≠ flag)) +
          δ.length = V.countP (fun x => decide (x ≠ flag)) := by
  intro es
  induction es with
  | nil =>
    intro stack V result _
    exact ⟨[], by simp [processEdges], by simp [processEdges], by simp [processEdges],
      by simp [processEdges], List.nodup_nil, by simp, by simp, by simp [processEdges]⟩
  | cons p es' ih =>
    obtain ⟨u, t⟩ := p
    intro stack V result hin
    have hu : u < V.length := hin (u, t) (List.mem_cons_self _ _)
    simp only [processEdges]
    by_cases hc : V.getD u 0 ≠ flag ∧ t.should_follow nn = true
    · rw [if_pos hc]
      have hin' : ∀ q ∈ es', q.1 < (V.set u flag).length := by
        intro q hq
        rw [List.length_set]
        exact hin q (List.mem_cons_of_mem _ hq)
      obtain ⟨δ', hS, hR, hL, hM, hND, hMem, hCompl, hCnt⟩ :=
        ih (u :: stack) (V.set u flag) (result ++ [u]) hin'
      have hmark1 : ∀ w, (V.set u flag).getD w 0 = flag ↔ (V.getD w 0 = flag ∨ w = u) := by
        intro w
        by_cases hw : u = w
        · rw [← hw, getD_set_self V u flag hu]
          simp
        · rw [getD_set_ne V u w flag hw]
          have : ¬ w = u := fun h => hw h.symm
          simp [this]
      have hunot : u ∉ δ' := by
        intro hmem
        have h1 := (hMem u hmem).1
        rw [getD_set_self V u flag hu] at h1
        exact h1 rfl
      refine ⟨u :: δ', ?_, ?_, ?_, ?_, ?_, ?_, ?_, ?_⟩
      · rw [hS]; simp
      · rw [hR]; simp
      · rw [hL, List.length_set]
      · intro w
        rw [hM w, hmark1 w]
        constructor
        · rintro ((h | h) | h)
          · exact Or.inl h
          · exact Or.inr (h ▸ List.mem_cons_self _ _)
          · exact Or.inr (List.mem_cons_of_mem _ h)
        · rintro (h | h)
          · exact Or.inl (Or.inl h)
          · rcases List.mem_cons.mp h with h | h
            · exact Or.inl (Or.inr h)
            · exact Or.inr h
      · exact List.nodup_cons.mpr ⟨hunot, hND⟩
      · intro w hw
        rcases List.mem_cons.mp hw with h | h
        · subst h
          exact ⟨hc.1, t, List.mem_cons_self _ _, hc.2⟩
        · have hmem := hMem w h
          have hwne : w ≠ u := fun hh => hunot (hh ▸ h)
          refine ⟨?_, ?_⟩
          · intro hmk
            exact hmem.1 ((hmark1 w).mpr (Or.inl hmk))
          · obtain ⟨t', ht', hf'⟩ := hmem.2
            exact ⟨t', List.mem_cons_of_mem _ ht', hf'⟩
      · intro q hq hfq
        rcases List.mem_cons.mp hq with h | h
        · subst h
          exact (hM u).mpr (Or.inl ((hmark1 u).mpr (Or.inr rfl)))
        · exact hCompl q h hfq
      · have hset := countP_set_mark flag V u hu hc.1
        simp only [List.length_cons]
        omega
    · rw [if_neg hc]
      obtain ⟨δ', hS, hR, hL, hM, hND, hMem, hCompl, hCnt⟩ :=
        ih stack V result (fun q hq => hin q (List.mem_cons_of_mem _ hq))
      refine ⟨δ', hS, hR, hL, hM, hND, ?_, ?_, hCnt⟩
      · intro w hw
        obtain ⟨h1, t', ht', hf'⟩ := hMem w hw
        exact ⟨h1, t', List.mem_cons_of_mem _ ht', hf'⟩
      · intro q hq hfq
        rcases List.mem_cons.mp hq with h | h
        · subst h
          by_cases hA : V.getD u 0 = flag
          · exact (hM u).mpr (Or.inl hA)
          · exact absurd ⟨hA, hfq⟩ hc
        · exact hCompl q h hfq

theorem adj_getD_mem (adj : List (List (Nat × RefType))) (w : Nat)
    (hw : w < adj.length) : adj.getD w [] ∈ adj := by
  rw [List.getD_eq_getElem?_getD, List.getElem?_eq_getElem hw]
  simp

theorem dfsLoop_inv (adj : List (List (Nat × RefType))) (nn : Bool) (flag v : Nat)
    (hwf : ∀ l ∈ adj, ∀ p ∈ l, p.1 < adj.length) :
    ∀ (fuel : Nat) (stack V result : List Nat),
      LoopInv adj nn flag v stack V result →
      2 * V.countP (fun x => decide (x ≠ flag)) + stack.length + 1 ≤ fuel →
      ∃ R V', dfsLoop adj nn flag fuel stack V result = some (R, V') ∧
        LoopInv adj nn flag v [] V' R := by
  intro fuel
  induction fuel with
  | zero => intro stack V result _ hf; omega
  | succ fuel ih =>
    intro stack V result hinv hf
    cases stack with
    | nil => exact ⟨result, V, rfl, hinv⟩
    | cons w rest =>
      have hin : ∀ p ∈ adj.getD w [], p.1 < V.length := by
        by_cases hw : w < adj.length
        · intro p hp
          rw [hinv.hlen]
          exact hwf _ (adj_getD_mem adj w hw) p hp
        · intro p hp
          rw [List.getD_eq_getElem?_getD, List.getElem?_eq_none (by omega)] at hp
          simp at hp
      obtain ⟨δ, hS, hR, hL, hM, hND, hMem, hCompl, hCnt⟩ :=
        processEdges_spec nn flag (adj.getD w []) rest V result hin
      rcases hPE : processEdges nn flag (adj.getD w []) rest V result with ⟨S', V', R'⟩
      rw [hPE] at hS hR hL hM hCompl hCnt
      dsimp only at hS hR hL hM hCompl hCnt
      subst hS
      subst hR
      have hmarkV : ∀ u, V.getD u 0 = flag → V'.getD u 0 = flag := by
        intro u hu
        exact (hM u).mpr (Or.inl hu)
      have hinv' : LoopInv adj nn flag v (δ.reverse ++ rest) V' (result ++ δ) := by
        refine ⟨?_, hinv.hflag, ?_, ?_, ?_, ?_, ?_, ?_⟩
        · rw [hL, hinv.hlen]
        · intro u
          rw [hM u, hinv.hmark u, List.mem_append]
          tauto
        · rw [List.nodup_append]
          refine ⟨hinv.hnodup, hND, ?_⟩
          intro a ha hain
          have h1 := (hMem a hain).1
          exact h1 ((hinv.hmark a).mpr (Or.inr ha))
        · rw [List.mem_append]
          rintro (h | h)
          · exact hinv.hstart h
          · exact (hMem v h).1 ((hinv.hmark v).mpr (Or.inl rfl))
        · intro w' hw'
          rw [List.mem_append, List.mem_reverse] at hw'
          rcases hw' with h | h
          · exact (hM w').mpr (Or.inr h)
          · exact hmarkV w' (hinv.hstack w' (List.mem_cons_of_mem _ h))
        · intro a ha hanot
          have haV : V.getD a 0 = flag := by
            rcases (hM a).mp ha with h | h
            · exact h
            · exact absurd (List.mem_append.mpr (Or.inl (List.mem_reverse.mpr h))) hanot
          by_cases haw : a = w
          · subst haw
            intro p hp hfp
            exact hCompl p hp hfp
          · have hnot : a ∉ w :: rest := by
              intro hmem
              rcases List.mem_cons.mp hmem with h | h
              · exact haw h
              · exact hanot (List.mem_append.mpr (Or.inr h))
            intro p hp hfp
            exact hmarkV p.1 (hinv.hclosed a haV hnot p hp hfp)
        · intro u hu
          rcases (hM u).mp hu with h | h
          · exact hinv.hreach u h
          · obtain ⟨_, t, ht, hft⟩ := hMem u h
            exact Relation.ReflTransGen.tail
              (hinv.hreach w (hinv.hstack w (List.mem_cons_self _ _)))
              ⟨t, ht, hft⟩
      have hfuel' : 2 * V'.countP (fun x => decide (x ≠ flag)) +
          (δ.reverse ++ rest).length + 1 ≤ fuel := by
        rw [List.length_append, List.length_reverse]
        simp only [List.length_cons] at hf
        omega
      obtain ⟨R, Vf, hrun, hfin⟩ := ih (δ.reverse ++ rest) V' (result ++ δ) hinv' hfuel'
      refine ⟨R, Vf, ?_, hfin⟩
      simp only [dfsLoop, hPE]
      exact hrun

theorem dfs_spec (g : RefGraph) (v : Nat) (nn : Bool)
    (hwf : QueryWf g) (hv : v < g.referenced_by.length) :
    ∃ R g', g.dfs v nn = some (R, g') ∧ R.Nodup ∧ v ∉ R ∧
      (∀ u, u ∈ R ↔ (u ≠ v ∧
        Relation.ReflTransGen (stepRel g.referenced_by nn) v u)) := by
  obtain ⟨hlen, hedges, hepoch⟩ := hwf
  have hvV : v < g.visited.length := by omega
  have hbound : ∀ u, g.visited.getD u 0 ≤ g.flag := by
    intro u
    by_cases hu : u < g.visited.length
    · rw [List.getD_eq_getElem?_getD, List.getElem?_eq_getElem hu]
      exact hepoch _ (by simp [List.getElem_mem hu])
    · rw [List.getD_eq_getElem?_getD, List.getElem?_eq_none (by omega)]
      simp
  have hinv : LoopInv g.referenced_by nn (g.flag + 1) v [v]
      (g.visited.set v (g.flag + 1)) [] := by
    refine ⟨?_, ?_, ?_, ?_, ?_, ?_, ?_, ?_⟩
    · rw [List.length_set, hlen]
    · omega
    · intro u
      by_cases huv : u = v
      · subst huv
        rw [getD_set_self _ _ _ hvV]
        simp
      · rw [getD_set_ne _ _ _ _ (fun h => huv h.symm)]
        have := hbound u
        constructor
        · intro h; omega
        · rintro (h | h)
          · exact absurd h huv
          · simp at h
    · exact List.nodup_nil
    · simp
    · intro w hw
      rcases List.mem_singleton.mp hw with rfl
      rw [getD_set_self _ _ _ hvV]
    · intro a ha hnot
      exfalso
      rcases (show a = v ∨ a ∈ ([] : List Nat) from by
        by_cases hav : a = v
        · exact Or.inl hav
        · rw [getD_set_ne _ _ _ _ (fun h => hav h.symm)] at ha
          have := hbound a
          omega) with h | h
      · exact hnot (h ▸ List.mem_singleton_self v)
      · simp at h
    · intro u hu
      by_cases huv : u = v
      · exact huv ▸ Relation.ReflTransGen.refl
      · exfalso
        rw [getD_set_ne _ _ _ _ (fun h => huv h.symm)] at hu
        have := hbound u
        omega
  have hcount : (g.visited.set v (g.flag + 1)).countP
      (fun x => decide (x ≠ g.flag + 1)) ≤ g.referenced_by.length := by
    calc (g.visited.set v (g.flag + 1)).countP (fun x => decide (x ≠ g.flag + 1))
        ≤ (g.visited.set v (g.flag + 1)).length := List.countP_le_length _
      _ = g.referenced_by.length := by rw [List.length_set, hlen]
  obtain ⟨R, V', hrun, hfin⟩ := dfsLoop_inv g.referenced_by nn (g.flag + 1) v hedges
    (2 * g.referenced_by.length + 2) [v] (g.visited.set v (g.flag + 1)) []
    hinv (by simp only [List.length_singleton]; omega)
  refine ⟨R, { g with flag := g.flag + 1, visited := V' }, ?_, hfin.hnodup, hfin.hstart, ?_⟩
  · simp only [RefGraph.dfs]
    rw [hrun]
  · intro u
    constructor
    · intro hu
      refine ⟨?_, ?_⟩
      · intro huv
        exact hfin.hstart (huv ▸ hu)
      · exact hfin.hreach u ((hfin.hmark u).mpr (Or.inr hu))
    · rintro ⟨huv, hreach⟩
      have hmarked : ∀ w, Relation.ReflTransGen (stepRel g.referenced_by nn) v w →
          V'.getD w 0 = g.flag + 1 := by
        intro w hw
        induction hw with
        | refl => exact (hfin.hmark v).mpr (Or.inl rfl)
        | tail h1 h2 ihm =>
          obtain ⟨t, ht, hft⟩ := h2
          exact hfin.hclosed _ ihm (by simp) _ ht hft
      rcases (hfin.hmark u).mp (hmarked u hreach) with h | h
      · exact absurd h huv
      · exact h

/-- Claim C9: the reachability query terminates on every well-formed
finite graph, cyclic reverse adjacency included: the explicit-stack loop
reaches the empty stack within its fuel bound, because the epoch marking
lets every node be pushed at most once per query. -/
theorem c9_dfs_terminates (g : RefGraph) (v : Nat) (nn : Bool)
    (hwf : QueryWf g) (hv : v < g.referenced_by.length) :
    (g.dfs v nn).isSome := by
  obtain ⟨R, g', h, _⟩ := dfs_spec g v nn hwf hv
  rw [h]
  rfl

/-- Witness for C9 on a concrete graph whose reverse adjacency is a
two-cycle. -/
theorem c9_dfs_terminates_witness :
    QueryWf exGraphCycle ∧ 0 < exGraphCycle.referenced_by.length ∧
      (exGraphCycle.dfs 0 false).isSome := by
  have hwf : QueryWf exGraphCycle := by
    refine ⟨by decide, ?_, by decide⟩
    decide
  exact ⟨hwf, by decide, c9_dfs_terminates exGraphCycle 0 false hwf (by decide)⟩

/-- Claim C6: for a fixed graph and start node, the reachable set computed
with `Note` edges included (`no_notices = false`) contains the one
computed with `Note` edges excluded (`no_notices = true`). -/
theorem c6_note_filter_monotone (g : RefGraph) (v : Nat)
    (hwf : QueryWf g) (hv : v < g.referenced_by.length) :
    ∃ resInc gInc resExc gExc,
      g.dfs v false = some (resInc, gInc) ∧
      g.dfs v true = some (resExc, gExc) ∧
      ∀ u ∈ resExc, u ∈ resInc := by
  obtain ⟨R1, g1, h1, _, _, hch1⟩ := dfs_spec g v false hwf hv
  obtain ⟨R2, g2, h2, _, _, hch2⟩ := dfs_spec g v true hwf hv
  refine ⟨R1, g1, R2, g2, h1, h2, ?_⟩
  intro u hu
  obtain ⟨hne, hr⟩ := (hch2 u).mp hu
  refine (hch1 u).mpr ⟨hne, Relation.ReflTransGen.mono ?_ hr⟩
  intro a b hab
  obtain ⟨t, ht, hft⟩ := hab
  refine ⟨t, ht, ?_⟩
  cases t <;> simp_all [RefType.should_follow]

/-- Witness for C6 on a concrete graph with a single `Note` edge. -/
theorem c6_note_filter_monotone_witness :
    QueryWf exGraphNote ∧
      (∃ resInc gInc resExc gExc,
        exGraphNote.dfs 0 false = some (resInc, gInc) ∧
        exGraphNote.dfs 0 true = some (resExc, gExc) ∧
        ∀ u ∈ resExc, u ∈ resInc) := by
  have hwf : QueryWf exGraphNote := by
    refine ⟨by decide, ?_, by decide⟩
    decide
  exact ⟨hwf, c6_note_filter_monotone exGraphNote 0 hwf (by decide)⟩

theorem empty_builtWf : BuiltWf RefGraph.empty := by
  refine ⟨rfl, rfl, rfl, by simp [RefGraph.empty], by simp [RefGraph.empty], ?_, ?_⟩
  · intro oid i h
    simp [RefGraph.lookup, RefGraph.empty, List.lookup] at h
  · intro oid
    simp [RefGraph.lookup, RefGraph.empty, List.lookup]

theorem lookup_or_alloc_spec (g : RefGraph) (oid : Oid) (hwf : BuiltWf g) :
    BuiltWf (g.lookup_or_alloc oid).1 ∧
    (g.lookup_or_alloc oid).2 < (g.lookup_or_alloc oid).1.id_to_hash.length ∧
    (∀ hsh, hsh ∈ (g.lookup_or_alloc oid).1.id_to_hash ↔
      (hsh ∈ g.id_to_hash ∨ hsh = oid)) := by
  obtain ⟨h1, h2, h3, h4, h5, h6, h7⟩ := hwf
  unfold RefGraph.lookup_or_alloc
  cases hl : g.lookup oid with
  | some id =>
    refine ⟨⟨h1, h2, h3, h4, h5, h6, h7⟩, h6 oid id hl, ?_⟩
    intro hsh
    constructor
    · exact Or.inl
    · rintro (h | rfl)
      · exact h
      · exact (h7 hsh).mp (by rw [hl]; rfl)
  | none =>
    dsimp only
    refine ⟨⟨?_, ?_, h3, ?_, ?_, ?_, ?_⟩, ?_, ?_⟩
    · simp [h1]
    · simp [h2]
    · intro x hx
      rcases List.mem_append.mp hx with h | h
      · exact h4 x h
      · simpa using h
    · intro l hl' p hp
      rcases List.mem_append.mp hl' with h | h
      · have := h5 l h p hp
        simp only [List.length_append, List.length_singleton]
        omega
      · rcases List.mem_singleton.mp h with rfl
        simp at hp
    · intro o i hli
      rw [show RefGraph.lookup
          { referenced_by := g.referenced_by ++ [[]],
            hash_to_id := (oid, g.id_to_hash.length) :: g.hash_to_id,
            id_to_hash := g.id_to_hash ++ [oid],
            flag := g.flag, visited := g.visited ++ [0] } o =
          List.lookup o ((oid, g.id_to_hash.length) :: g.hash_to_id) from rfl,
        List.lookup_cons] at hli
      simp only [List.length_append, List.length_singleton]
      by_cases ho : o == oid
      · rw [show (o == oid) = true from by simpa using ho] at hli
        simp at hli
        omega
      · rw [show (o == oid) = false from by simpa using ho] at hli
        have := h6 o i hli
        omega
    · intro o
      rw [show RefGraph.lookup
          { referenced_by := g.referenced_by ++ [[]],
            hash_to_id := (oid, g.id_to_hash.length) :: g.hash_to_id,
            id_to_hash := g.id_to_hash ++ [oid],
            flag := g.flag, visited := g.visited ++ [0] } o =
          List.lookup o ((oid, g.id_to_hash.length) :: g.hash_to_id) from rfl,
        List.lookup_cons]
      by_cases ho : o = oid
      · subst ho
        simp
      · rw [show (o == oid) = false from by simpa using ho]
        dsimp only
        rw [show List.lookup o g.hash_to_id = g.lookup o from rfl, h7 o]
        simp [ho]
    · simp
    · intro hsh
      simp [List.mem_append, List.mem_singleton]

theorem listModify_length : ∀ (l : List α) (i : Nat) (f : α → α),
    (listModify l i f).length = l.length := by
  intro l
  induction l with
  | nil => intro i f; rfl
  | cons a t ih =>
    intro i f
    cases i with
    | zero => rfl
    | succ n => simp [listModify, ih]

theorem listModify_mem : ∀ (l : List α) (i : Nat) (f : α → α) (x : α),
    x ∈ listModify l i f → x ∈ l ∨ ∃ y ∈ l, x = f y := by
  intro l
  induction l with
  | nil => intro i f x hx; simp [listModify] at hx
  | cons a t ih =>
    intro i f x hx
    cases i with
    | zero =>
      rcases List.mem_cons.mp hx with h | h
      · exact Or.inr ⟨a, List.mem_cons_self _ _, h⟩
      · exact Or.inl (List.mem_cons_of_mem _ h)
    | succ n =>
      rcases List.mem_cons.mp hx with h | h
      · exact Or.inl (h ▸ List.mem_cons_self _ _)
      · rcases ih n f x h with h' | ⟨y, hy, hxy⟩
        · exact Or.inl (List.mem_cons_of_mem _ h')
        · exact Or.inr ⟨y, List.mem_cons_of_mem _ hy, hxy⟩

theorem getD_listModify_self : ∀ (l : List α) (i : Nat) (f : α → α) (d : α),
    i < l.length → (listModify l i f).getD i d = f (l.getD i d) := by
  intro l
  induction l with
  | nil => intro i f d h; simp at h
  | cons a t ih =>
    intro i f d h
    cases i with
    | zero => rfl
    | succ n =>
      simp only [listModify, List.getD_cons_succ]
      exact ih n f d (by simpa using h)

theorem getD_listModify_ne : ∀ (l : List α) (i j : Nat) (f : α → α) (d : α),
    i ≠ j → (listModify l i f).getD j d = l.getD j d := by
  intro l
  induction l with
  | nil => intro i j f d h; cases i <;> rfl
  | cons a t ih =>
    intro i j f d h
    cases i with
    | zero =>
      cases j with
      | zero => exact absurd rfl h
      | succ m => rfl
    | succ n =>
      cases j with
      | zero => rfl
      | succ m =>
        simp only [listModify, List.getD_cons_succ]
        exact ih n m f d (fun hh => h (by omega))

theorem pushEdges_foldl_getD (id : Nat) :
    ∀ (added : List (Nat × RefType)) (rb : List (List (Nat × RefType))) (tgt : Nat),
      tgt < rb.length →
      (added.foldl (fun rb p => listModify rb p.1 (fun l => l ++ [(id, p.2)])) rb).getD tgt [] =
        rb.getD tgt [] ++ (added.filter (fun p => p.1 == tgt)).map (fun p => (id, p.2)) := by
  intro added
  induction added with
  | nil => intro rb tgt _; simp
  | cons q rest ih =>
    obtain ⟨k, ty⟩ := q
    intro rb tgt htgt
    simp only [List.foldl_cons]
    rw [ih (listModify rb k (fun l => l ++ [(id, ty)])) tgt
      (by rw [listModify_length]; exact htgt)]
    by_cases hk : k = tgt
    · subst hk
      rw [getD_listModify_self rb k _ [] htgt]
      simp [List.filter_cons]
    · rw [getD_listModify_ne rb k tgt _ [] hk]
      simp only [List.filter_cons]
      rw [show ((k, ty).1 == tgt) = false from by simpa using hk]
      simp

theorem pushEdges_foldl_length :
    ∀ (added : List (Nat × RefType)) (rb : List (List (Nat × RefType))) (id : Nat),
      (added.foldl (fun rb p => listModify rb p.1 (fun l => l ++ [(id, p.2)])) rb).length =
        rb.length := by
  intro added
  induction added with
  | nil => intro rb id; rfl
  | cons q rest ih =>
    intro rb id
    simp only [List.foldl_cons]
    rw [ih, listModify_length]

theorem pushEdges_foldl_bound (N : Nat) :
    ∀ (added : List (Nat × RefType)) (rb : List (List (Nat × RefType))) (id : Nat),
      (∀ l ∈ rb, ∀ p ∈ l, p.1 < N) → id < N →
      ∀ l ∈ (added.foldl (fun rb p => listModify rb p.1 (fun l => l ++ [(id, p.2)])) rb),
        ∀ p ∈ l, p.1 < N := by
  intro added
  induction added with
  | nil => intro rb id hb _; exact hb
  | cons q rest ih =>
    intro rb id hb hid
    simp only [List.foldl_cons]
    refine ih (listModify rb q.1 (fun l => l ++ [(id, q.2)])) id ?_ hid
    intro l hl p hp
    rcases listModify_mem rb q.1 _ l hl with h | ⟨y, hy, rfl⟩
    · exact hb l h p hp
    · rcases List.mem_append.mp hp with h | h
      · exact hb y hy p h
      · rcases List.mem_singleton.mp h with rfl
        exact hid

theorem ingestCommit_wf (repo : Repo) (g : RefGraph) (oid : Oid) (g' : RefGraph)
    (hwf : BuiltWf g) (h : ingestCommit repo g oid = some g') :
    BuiltWf g' ∧ (∀ hsh, hsh ∈ g'.id_to_hash ↔ (hsh ∈ g.id_to_hash ∨ hsh = oid)) := by
  obtain ⟨hga, hid, hmem⟩ := lookup_or_alloc_spec g oid hwf
  unfold ingestCommit at h
  cases hc : repo.find_commit oid with
  | none => rw [hc] at h; exact absurd h (by simp)
  | some commit =>
    rw [hc] at h
    dsimp only at h
    cases he : extract_references commit with
    | none => rw [he] at h; exact absurd h (by simp)
    | some entries =>
      rw [he] at h
      dsimp only at h
      have hg' : g' = pushEdges (g.lookup_or_alloc oid).1 (g.lookup_or_alloc oid).2
          (collectEdges repo (g.lookup_or_alloc oid).1 entries) := by
        exact (Option.some.inj h).symm
      subst hg'
      obtain ⟨w1, w2, w3, w4, w5, w6, w7⟩ := hga
      constructor
      · refine ⟨?_, w2, w3, w4, ?_, w6, w7⟩
        · simp only [pushEdges]
          rw [pushEdges_foldl_length]
          exact w1
        · simp only [pushEdges]
          exact pushEdges_foldl_bound _ _ _ _ w5 hid
      · intro hsh
        simp only [pushEdges]
        exact hmem hsh

theorem foldlM_ingest_wf (repo : Repo) :
    ∀ (l : List Oid) (g G : RefGraph), BuiltWf g →
      List.foldlM (fun g oid => ingestCommit repo g oid) g l = some G →
      BuiltWf G ∧ (∀ hsh, hsh ∈ G.id_to_hash ↔ (hsh ∈ g.id_to_hash ∨ hsh ∈ l)) := by
  intro l
  induction l with
  | nil =>
    intro g G hwf h
    simp only [List.foldlM_nil] at h
    cases h
    exact ⟨hwf, fun hsh => by simp⟩
  | cons o l' ih =>
    intro g G hwf h
    rw [List.foldlM_cons] at h
    rcases Option.bind_eq_some.mp h with ⟨g1, hg1, hrest⟩
    obtain ⟨hwf1, hmem1⟩ := ingestCommit_wf repo g o g1 hwf hg1
    obtain ⟨hwfG, hmemG⟩ := ih g1 G hwf1 hrest
    refine ⟨hwfG, ?_⟩
    intro hsh
    rw [hmemG hsh, hmem1 hsh, List.mem_cons]
    tauto

theorem new_wf (repo : Repo) (commits : List (Option Oid)) (G : RefGraph)
    (h : RefGraph.new repo commits = some G) :
    BuiltWf G ∧ (∀ hsh, hsh ∈ G.id_to_hash ↔ hsh ∈ commits.filterMap id) := by
  obtain ⟨hwf, hmem⟩ :=
    foldlM_ingest_wf repo (commits.filterMap id) RefGraph.empty G empty_builtWf h
  refine ⟨hwf, ?_⟩
  intro hsh
  rw [hmem hsh]
  simp [RefGraph.empty]

theorem builtWf_queryWf (g : RefGraph) (h : BuiltWf g) : QueryWf g := by
  obtain ⟨h1, h2, h3, h4, h5, _, _⟩ := h
  refine ⟨by omega, ?_, ?_⟩
  · intro l hl p hp
    have := h5 l hl p hp
    omega
  · intro x hx
    rw [h4 x hx, h3]

/-- Claim C1: on a graph built by ingestion, the reachability query
returns exactly the nodes reachable from the start node along
reverse-adjacency edges passing the filter, excluding the start node,
with no duplicates. -/
theorem c1_dfs_reachability (repo : Repo) (commits : List (Option Oid))
    (G : RefGraph) (v : Nat) (nn : Bool)
    (hG : RefGraph.new repo commits = some G)
    (hv : v < G.referenced_by.length) :
    ∃ res G', G.dfs v nn = some (res, G') ∧ res.Nodup ∧ v ∉ res ∧
      (∀ u, u ∈ res ↔ (u ≠ v ∧
        Relation.ReflTransGen (stepRel G.referenced_by nn) v u)) := by
  obtain ⟨hb, _⟩ := new_wf repo commits G hG
  exact dfs_spec G v nn (builtWf_queryWf G hb) hv

/-- Witness for C1: the ingested two-commit graph, queried from node 0. -/
theorem c1_dfs_reachability_witness :
    RefGraph.new exRepoAB exCommitsAB = some exGraphAB ∧
      (∃ res G', exGraphAB.dfs 0 false = some (res, G') ∧ res.Nodup ∧ 0 ∉ res ∧
        (∀ u, u ∈ res ↔ (u ≠ 0 ∧
          Relation.ReflTransGen (stepRel exGraphAB.referenced_by false) 0 u))) := by
  have hG : RefGraph.new exRepoAB exCommitsAB = some exGraphAB := by decide
  exact ⟨hG, c1_dfs_reachability exRepoAB exCommitsAB exGraphAB 0 false hG (by decide)⟩

/-- Claim C3: after ingestion the graph's nodes are exactly the walked
hashes (a hash that is only referenced never gets an index or an
id-to-hash entry), and every stored edge endpoint is one of those nodes,
so no edge involves an out-of-range hash. -/
theorem c3_no_node_for_unwalked (repo : Repo) (commits : List (Option Oid))
    (G : RefGraph) (h : RefGraph.new repo commits = some G) :
    (∀ hsh, hsh ∈ G.id_to_hash ↔ hsh ∈ commits.filterMap id) ∧
    (∀ hsh, (G.lookup hsh).isSome ↔ hsh ∈ commits.filterMap id) ∧
    G.referenced_by.length = G.id_to_hash.length ∧
    (∀ l ∈ G.referenced_by, ∀ p ∈ l, p.1 < G.id_to_hash.length) := by
  obtain ⟨⟨h1, _, _, _, h5, _, h7⟩, hmem⟩ := new_wf repo commits G h
  refine ⟨hmem, ?_, h1, h5⟩
  intro hsh
  rw [h7 hsh, hmem hsh]

/-- Witness for C3: the walked commit references the resolvable but
unwalked hash `ffffffff99`; the built graph has one node and no edges. -/
theorem c3_no_node_for_unwalked_witness :
    RefGraph.new exRepoGhost [some "bbbbbbbb22"] =
      some ⟨[[]], [("bbbbbbbb22", 0)], ["bbbbbbbb22"], 0, [0]⟩ ∧
    ¬ ("ffffffff99" ∈ (["bbbbbbbb22"] : List Oid)) ∧
    (∀ hsh, hsh ∈ (⟨[[]], [("bbbbbbbb22", 0)], ["bbbbbbbb22"], 0, [0]⟩ :
        RefGraph).id_to_hash ↔
      hsh ∈ ([some "bbbbbbbb22"] : List (Option Oid)).filterMap id) ∧
    (∀ hsh, ((⟨[[]], [("bbbbbbbb22", 0)], ["bbbbbbbb22"], 0, [0]⟩ :
        RefGraph).lookup hsh).isSome ↔
      hsh ∈ ([some "bbbbbbbb22"] : List (Option Oid)).filterMap id) ∧
    (⟨[[]], [("bbbbbbbb22", 0)], ["bbbbbbbb22"], 0, [0]⟩ :
        RefGraph).referenced_by.length =
      (⟨[[]], [("bbbbbbbb22", 0)], ["bbbbbbbb22"], 0, [0]⟩ :
        RefGraph).id_to_hash.length ∧
    (∀ l ∈ (⟨[[]], [("bbbbbbbb22", 0)], ["bbbbbbbb22"], 0, [0]⟩ :
        RefGraph).referenced_by, ∀ p ∈ l,
      p.1 < (⟨[[]], [("bbbbbbbb22", 0)], ["bbbbbbbb22"], 0, [0]⟩ :
        RefGraph).id_to_hash.length) := by
  have hG : RefGraph.new exRepoGhost [some "bbbbbbbb22"] =
      some ⟨[[]], [("bbbbbbbb22", 0)], ["bbbbbbbb22"], 0, [0]⟩ := by decide
  obtain ⟨a, b, c, d⟩ := c3_no_node_for_unwalked exRepoGhost [some "bbbbbbbb22"] _ hG
  exact ⟨hG, by decide, a, b, c, d⟩

theorem rmax_choice (a b : RefType) : rmax a b = a ∨ rmax a b = b := by
  unfold rmax
  split
  · exact Or.inl rfl
  · exact Or.inr rfl

theorem rank_le_rmax_left (a b : RefType) : a.rank ≤ (rmax a b).rank := by
  unfold rmax
  split
  · exact Nat.le_refl _
  · omega

theorem rank_le_rmax_right (a b : RefType) : b.rank ≤ (rmax a b).rank := by
  unfold rmax
  split
  · omega
  · exact Nat.le_refl _

theorem foldl_rmax_mem : ∀ (ts : List RefType) (t : RefType),
    ts.foldl rmax t ∈ t :: ts := by
  intro ts
  induction ts with
  | nil => intro t; simp
  | cons s ts ih =>
    intro t
    simp only [List.foldl_cons]
    rcases rmax_choice t s with hc | hc
    · rw [hc]
      rcases List.mem_cons.mp (ih t) with h | h
      · rw [h]
        exact List.mem_cons_self _ _
      · exact List.mem_cons_of_mem _ (List.mem_cons_of_mem _ h)
    · rw [hc]
      rcases List.mem_cons.mp (ih s) with h | h
      · rw [h]
        exact List.mem_cons_of_mem _ (List.mem_cons_self _ _)
      · exact List.mem_cons_of_mem _ (List.mem_cons_of_mem _ h)

theorem rank_le_foldl_rmax : ∀ (ts : List RefType) (t s : RefType),
    s ∈ t :: ts → s.rank ≤ (ts.foldl rmax t).rank := by
  intro ts
  induction ts with
  | nil =>
    intro t s hs
    rcases List.mem_singleton.mp hs with rfl
    exact Nat.le_refl _
  | cons s' ts ih =>
    intro t s hs
    simp only [List.foldl_cons]
    have hbase : RefType.rank (rmax t s') ≤
        RefType.rank (List.foldl rmax (rmax t s') ts) :=
      ih (rmax t s') (rmax t s') (List.mem_cons_self _ _)
    rcases List.mem_cons.mp hs with h | hs'
    · rw [h]
      exact Nat.le_trans (rank_le_rmax_left t s') hbase
    · rcases List.mem_cons.mp hs' with h | hs''
      · rw [h]
        exact Nat.le_trans (rank_le_rmax_right t s') hbase
      · exact ih (rmax t s') s (List.mem_cons_of_mem _ hs'')

theorem addMention_filter (k : Nat) :
    ∀ (l : List (Nat × RefType)) (u : Nat) (t : RefType),
      (addMention l u t).filter (fun p => p.1 == k) =
        if u = k then
          match l.filter (fun p => p.1 == k) with
          | [] => [(u, t)]
          | q :: rest => (u, rmax q.2 t) :: rest
        else l.filter (fun p => p.1 == k) := by
  intro l
  induction l with
  | nil =>
    intro u t
    by_cases huk : u = k
    · subst huk
      simp [addMention, List.filter_cons]
    · simp [addMention, List.filter_cons, huk]
  | cons p l' ih =>
    intro u t
    by_cases hpu : p.1 = u
    · rw [show addMention (p :: l') u t = (p.1, rmax p.2 t) :: l' from by
        simp [addMention, hpu]]
      by_cases huk : u = k
      · have hpk : p.1 = k := hpu.trans huk
        simp [List.filter_cons, hpk, huk, hpu]
      · have hpk : ¬ p.1 = k := fun h => huk (hpu ▸ h)
        simp [List.filter_cons, hpk, huk]
    · rw [show addMention (p :: l') u t = p :: addMention l' u t from by
        simp [addMention, hpu]]
      by_cases hpk : p.1 = k
      · have huk : ¬ u = k := fun h => hpu (hpk.trans h.symm)
        simp only [List.filter_cons, hpk]
        rw [ih u t, if_neg huk]
        simp [hpk, huk]
      · simp only [List.filter_cons]
        rw [ih u t]
        by_cases huk : u = k
        · simp [hpk, huk]
        · simp [hpk, huk]

theorem foldl_addMention_filter_single (k : Nat) :
    ∀ (R acc : List (Nat × RefType)) (t0 : RefType),
      acc.filter (fun p => p.1 == k) = [(k, t0)] →
      (R.foldl (fun a p => addMention a p.1 p.2) acc).filter (fun p => p.1 == k) =
        [(k, ((R.filter (fun p => p.1 == k)).map Prod.snd).foldl rmax t0)] := by
  intro R
  induction R with
  | nil =>
    intro acc t0 h
    simpa using h
  | cons p R' ih =>
    intro acc t0 h
    simp only [List.foldl_cons]
    by_cases hk : p.1 = k
    · have hstep : (addMention acc p.1 p.2).filter (fun q => q.1 == k) =
          [(k, rmax t0 p.2)] := by
        rw [addMention_filter k acc p.1 p.2, if_pos hk, h, hk]
      rw [ih _ _ hstep]
      simp [List.filter_cons, hk]
    · have hstep : (addMention acc p.1 p.2).filter (fun q => q.1 == k) = [(k, t0)] := by
        rw [addMention_filter k acc p.1 p.2, if_neg hk, h]
      rw [ih _ _ hstep]
      simp [List.filter_cons, hk]

theorem foldl_addMention_filter_nil (k : Nat) :
    ∀ (R acc : List (Nat × RefType)),
      acc.filter (fun p => p.1 == k) = [] →
      (R.foldl (fun a p => addMention a p.1 p.2) acc).filter (fun p => p.1 == k) =
        (match (R.filter (fun p => p.1 == k)).map Prod.snd with
          | [] => ([] : List (Nat × RefType))
          | t :: ts => [(k, ts.foldl rmax t)]) := by
  intro R
  induction R with
  | nil =>
    intro acc h
    simpa using h
  | cons p R' ih =>
    intro acc h
    simp only [List.foldl_cons]
    by_cases hk : p.1 = k
    · have hstep : (addMention acc p.1 p.2).filter (fun q => q.1 == k) =
          [(k, p.2)] := by
        rw [addMention_filter k acc p.1 p.2, if_pos hk, h, hk]
      rw [foldl_addMention_filter_single k R' _ p.2 hstep]
      simp [List.filter_cons, hk]
    · have hstep : (addMention acc p.1 p.2).filter (fun q => q.1 == k) = [] := by
        rw [addMention_filter k acc p.1 p.2, if_neg hk, h]
      rw [ih _ hstep]
      simp [List.filter_cons, hk]

theorem collectEdges_eq_resolve (repo : Repo) (g : RefGraph) :
    ∀ (entries : List RefEntry) (acc : List (Nat × RefType)),
      entries.foldl
        (fun added e =>
          match (get_commit_by_ref_entry repo e).1 with
          | none => added
          | some c =>
            match g.lookup c.id with
            | none => added
            | some rid => addMention added rid e.ref_type) acc =
      (resolveEntries repo g entries).foldl (fun a p => addMention a p.1 p.2) acc := by
  intro entries
  induction entries with
  | nil => intro acc; rfl
  | cons e es ih =>
    intro acc
    simp only [resolveEntries] at ih
    cases h1 : (get_commit_by_ref_entry repo e).1 with
    | none =>
      simp only [List.foldl_cons, resolveEntries, List.filterMap_cons, h1]
      exact ih acc
    | some c =>
      cases h2 : g.lookup c.id with
      | none =>
        simp only [List.foldl_cons, resolveEntries, List.filterMap_cons, h1, h2]
        exact ih acc
      | some rid =>
        simp only [List.foldl_cons, resolveEntries, List.filterMap_cons, h1, h2]
        exact ih (addMention acc rid e.ref_type)

/-- Claim C2: during the ingestion of one commit, all resolved mentions of
the same target collapse into exactly one stored edge from the commit's
own index, whose type is the maximum of the mentioned types in the
`Note < Fix < Revert` order (it belongs to the mentioned types and its
rank dominates all of them). -/
theorem c2_edge_dedup (repo : Repo) (g : RefGraph) (oid : Oid) (gOut : RefGraph)
    (commit : CommitData) (entries : List RefEntry)
    (tgt : Nat) (t : RefType) (ts : List RefType)
    (hfind : repo.find_commit oid = some commit)
    (hext : extract_references commit = some entries)
    (hing : ingestCommit repo g oid = some gOut)
    (htgt : tgt < (g.lookup_or_alloc oid).1.referenced_by.length)
    (hres : ((resolveEntries repo (g.lookup_or_alloc oid).1 entries).filter
        (fun p => p.1 == tgt)).map Prod.snd = t :: ts) :
    gOut.referenced_by.getD tgt [] =
      (g.lookup_or_alloc oid).1.referenced_by.getD tgt [] ++
        [((g.lookup_or_alloc oid).2, ts.foldl rmax t)] ∧
    ts.foldl rmax t ∈ t :: ts ∧
    (∀ s ∈ t :: ts, RefType.rank s ≤ RefType.rank (ts.foldl rmax t)) := by
  unfold ingestCommit at hing
  rw [hfind] at hing
  dsimp only at hing
  rw [hext] at hing
  dsimp only at hing
  have hg : gOut = pushEdges (g.lookup_or_alloc oid).1 (g.lookup_or_alloc oid).2
      (collectEdges repo (g.lookup_or_alloc oid).1 entries) :=
    (Option.some.inj hing).symm
  subst hg
  refine ⟨?_, foldl_rmax_mem ts t, fun s hs => rank_le_foldl_rmax ts t s hs⟩
  simp only [pushEdges]
  rw [pushEdges_foldl_getD _ _ _ _ htgt]
  have hcoll : (collectEdges repo (g.lookup_or_alloc oid).1 entries).filter
      (fun p => p.1 == tgt) = [(tgt, ts.foldl rmax t)] := by
    unfold collectEdges
    rw [collectEdges_eq_resolve]
    rw [foldl_addMention_filter_nil tgt _ [] (by simp)]
    rw [hres]
  rw [hcoll]
  simp

/-- Witness for C2: commit B mentions A (index 0) as `Note` and again
under `Fixes:`; exactly one edge `(1, Fix)` is stored on node 0. -/
theorem c2_edge_dedup_witness :
    ingestCommit exRepoDup exGraphA "bbbbbbbb22" =
      some ⟨[[(1, RefType.Fix)], []], [("bbbbbbbb22", 1), ("aaaaaaaa11", 0)],
        ["aaaaaaaa11", "bbbbbbbb22"], 0, [0, 0]⟩ ∧
    ((resolveEntries exRepoDup (exGraphA.lookup_or_alloc "bbbbbbbb22").1
        [⟨"aaaaaaaa11", "Title A", RefType.Note⟩,
         ⟨"aaaaaaaa11", "Title A", RefType.Fix⟩]).filter
      (fun p => p.1 == 0)).map Prod.snd = [RefType.Note, RefType.Fix] ∧
    ((⟨[[(1, RefType.Fix)], []], [("bbbbbbbb22", 1), ("aaaaaaaa11", 0)],
        ["aaaaaaaa11", "bbbbbbbb22"], 0, [0, 0]⟩ : RefGraph).referenced_by.getD 0 [] =
      (exGraphA.lookup_or_alloc "bbbbbbbb22").1.referenced_by.getD 0 [] ++
        [((exGraphA.lookup_or_alloc "bbbbbbbb22").2,
          [RefType.Fix].foldl rmax RefType.Note)] ∧
      [RefType.Fix].foldl rmax RefType.Note ∈ [RefType.Note, RefType.Fix] ∧
      (∀ s ∈ [RefType.Note, RefType.Fix],
        RefType.rank s ≤ RefType.rank ([RefType.Fix].foldl rmax RefType.Note))) := by
  refine ⟨by decide, by decide, ?_⟩
  exact c2_edge_dedup exRepoDup exGraphA "bbbbbbbb22" _
    ⟨"bbbbbbbb22", some "Title B",
      some "aaaaaaaa11 (\"Title A\") Fixes: aaaaaaaa11 (\"Title A\")"⟩
    [⟨"aaaaaaaa11", "Title A", RefType.Note⟩, ⟨"aaaaaaaa11", "Title A", RefType.Fix⟩]
    0 RefType.Note [RefType.Fix]
    (by decide) (by decide) (by decide) (by decide) (by decide)

theorem isPrefixOf_append (l s : List Char) (h : l.isPrefixOf s = true) :
    ∃ q, s = l ++ q := by
  obtain ⟨q, hq⟩ := List.isPrefixOf_iff_prefix.mp h
  exact ⟨q, hq.symm⟩

theorem matchTail_decomp (hh rr2 h' tt r4 : List Char)
    (hm : matchTail hh rr2 = some (h', tt, r4)) :
    h' = hh ∧ rr2 = tt ++ '"' :: ')' :: r4 := by
  unfold matchTail at hm
  dsimp only at hm
  split at hm
  · exact absurd hm (by simp)
  · split at hm
    · rename_i heq
      obtain ⟨rfl, rfl, rfl⟩ : hh = h' ∧ rr2.takeWhile (fun c => c ≠ '"') = tt ∧
          _ = r4 := by
        have := Option.some.inj hm
        exact ⟨congrArg (fun x => x.1) this, congrArg (fun x => x.2.1) this,
          congrArg (fun x => x.2.2) this⟩
      refine ⟨rfl, ?_⟩
      conv_lhs => rw [← List.takeWhile_append_dropWhile (fun c => c ≠ '"') rr2]
      rw [heq]
    · exact absurd hm (by simp)

theorem matchCore_decomp (s hh tt r : List Char)
    (hm : matchCore s = some (hh, tt, r)) : ∃ p, s = p ++ ')' :: r := by
  unfold matchCore at hm
  dsimp only at hm
  split at hm
  · exact absurd hm (by simp)
  · split at hm
    · rename_i heq
      obtain ⟨_, hr2⟩ := matchTail_decomp _ _ _ _ _ hm
      refine ⟨s.takeWhile isHexDigit ++ ' ' :: '(' :: '"' :: (tt ++ ['"']), ?_⟩
      conv_lhs => rw [← List.takeWhile_append_dropWhile isHexDigit s]
      rw [heq, hr2]
      simp
    · rename_i heq
      obtain ⟨_, hr2⟩ := matchTail_decomp _ _ _ _ _ hm
      refine ⟨s.takeWhile isHexDigit ++ '(' :: '"' :: (tt ++ ['"']), ?_⟩
      conv_lhs => rw [← List.takeWhile_append_dropWhile isHexDigit s]
      rw [heq, hr2]
      simp
    · exact absurd hm (by simp)

theorem matchRef_some_fix (s hh tt r : List Char)
    (hm : matchRef s = some (true, hh, tt, r)) :
    "Fixes: ".data.isPrefixOf s = true ∧ matchCore (s.drop 7) = some (hh, tt, r) := by
  unfold matchRef at hm
  by_cases hpre : "Fixes: ".data.isPrefixOf s
  · rw [if_pos hpre] at hm
    cases hc : matchCore (s.drop 7) with
    | none =>
      rw [hc] at hm
      dsimp only at hm
      cases hcs : matchCore s <;> simp [hcs] at hm
    | some x =>
      obtain ⟨x1, x2, x3⟩ := x
      rw [hc] at hm
      dsimp only at hm
      simp only [Option.some.injEq, Prod.mk.injEq] at hm
      obtain ⟨-, rfl, rfl, rfl⟩ := hm
      exact ⟨hpre, rfl⟩
  · rw [if_neg hpre] at hm
    cases hcs : matchCore s <;> simp [hcs] at hm

theorem matchRef_some_note (s hh tt r : List Char)
    (hm : matchRef s = some (false, hh, tt, r)) :
    matchCore s = some (hh, tt, r) := by
  unfold matchRef at hm
  by_cases hpre : "Fixes: ".data.isPrefixOf s
  · rw [if_pos hpre] at hm
    cases hc : matchCore (s.drop 7) with
    | none =>
      rw [hc] at hm
      dsimp only at hm
      cases hcs : matchCore s with
      | none => simp [hcs] at hm
      | some x =>
        obtain ⟨x1, x2, x3⟩ := x
        rw [hcs] at hm
        simp only [Option.map_some', Option.some.injEq, Prod.mk.injEq] at hm
        obtain ⟨-, rfl, rfl, rfl⟩ := hm
        rfl
    | some x =>
      obtain ⟨x1, x2, x3⟩ := x
      rw [hc] at hm
      dsimp only at hm
      simp at hm
  · rw [if_neg hpre] at hm
    cases hcs : matchCore s with
    | none => simp [hcs] at hm
    | some x =>
      obtain ⟨x1, x2, x3⟩ := x
      rw [hcs] at hm
      simp only [Option.map_some', Option.some.injEq, Prod.mk.injEq] at hm
      obtain ⟨-, rfl, rfl, rfl⟩ := hm
      rfl

theorem matchRef_none (s : List Char) (hm : matchRef s = none) :
    matchCore s = none ∧
    ("Fixes: ".data.isPrefixOf s = true → matchCore (s.drop 7) = none) := by
  unfold matchRef at hm
  by_cases hpre : "Fixes: ".data.isPrefixOf s
  · rw [if_pos hpre] at hm
    cases hc : matchCore (s.drop 7) with
    | none =>
      rw [hc] at hm
      dsimp only at hm
      cases hcs : matchCore s with
      | none => exact ⟨rfl, fun _ => rfl⟩
      | some x => rw [hcs] at hm; simp at hm
    | some x =>
      obtain ⟨x1, x2, x3⟩ := x
      rw [hc] at hm
      dsimp only at hm
      simp at hm
  · rw [if_neg hpre] at hm
    cases hcs : matchCore s with
    | none => exact ⟨rfl, fun hp => absurd hp hpre⟩
    | some x => rw [hcs] at hm; simp at hm

theorem matchRef_decomp (s : List Char) (f : Bool) (hh tt r : List Char)
    (hm : matchRef s = some (f, hh, tt, r)) : ∃ p, s = p ++ ')' :: r := by
  cases f with
  | false => exact matchCore_decomp s hh tt r (matchRef_some_note s hh tt r hm)
  | true =>
    obtain ⟨hpre, hc⟩ := matchRef_some_fix s hh tt r hm
    obtain ⟨q, hq⟩ := isPrefixOf_append _ _ hpre
    obtain ⟨p0, hp0⟩ := matchCore_decomp _ hh tt r hc
    have hdrop : s.drop 7 = q := by
      rw [hq]
      rw [show (7 : Nat) = "Fixes: ".data.length from rfl]
      exact List.drop_left _ _
    refine ⟨"Fixes: ".data ++ p0, ?_⟩
    rw [hq, ← hdrop, hp0]
    simp

theorem matchRef_rest_lt (s : List Char) (f : Bool) (hh tt r : List Char)
    (hm : matchRef s = some (f, hh, tt, r)) : r.length < s.length := by
  obtain ⟨p, hp⟩ := matchRef_decomp s f hh tt r hm
  rw [hp]
  simp only [List.length_append, List.length_cons]
  omega

theorem scanRefsAux_congr : ∀ (f1 : Nat) (s : List Char) (f2 : Nat),
    s.length < f1 → s.length < f2 → scanRefsAux f1 s = scanRefsAux f2 s := by
  intro f1
  induction f1 with
  | zero => intro s f2 h1 _; omega
  | succ f1 ih =>
    intro s f2 h1 h2
    cases f2 with
    | zero => omega
    | succ f2 =>
      simp only [scanRefsAux]
      cases hm : matchRef s with
      | some quad =>
        obtain ⟨f, h, t, r⟩ := quad
        have hlt := matchRef_rest_lt s f h t r hm
        dsimp only
        rw [ih r f2 (by omega) (by omega)]
      | none =>
        cases s with
        | nil => rfl
        | cons c tail =>
          simp only [List.length_cons] at h1 h2
          dsimp only
          rw [ih tail f2 (by omega) (by omega)]

theorem scanRefsAux_succ (fuel : Nat) (s : List Char) :
    scanRefsAux (fuel + 1) s =
      match matchRef s with
      | some (f, h, t, r) =>
        { hash := String.mk h, title := String.mk t,
          ref_type := if f then RefType.Fix else RefType.Note } :: scanRefsAux fuel r
      | none =>
        match s with
        | [] => []
        | _ :: tail => scanRefsAux fuel tail := rfl

theorem scanRefs_eq (s : List Char) :
    scanRefs s =
      match matchRef s with
      | some (f, h, t, r) =>
        { hash := String.mk h, title := String.mk t,
          ref_type := if f then RefType.Fix else RefType.Note } :: scanRefs r
      | none =>
        match s with
        | [] => []
        | _ :: tail => scanRefs tail := by
  cases hm : matchRef s with
  | some quad =>
    obtain ⟨f, h, t, r⟩ := quad
    have hlt := matchRef_rest_lt s f h t r hm
    show scanRefsAux (s.length + 1) s = _
    rw [scanRefsAux_succ, hm]
    dsimp only
    rw [show scanRefs r = scanRefsAux (r.length + 1) r from rfl]
    rw [scanRefsAux_congr s.length r (r.length + 1) (by omega) (by omega)]
  | none =>
    cases s with
    | nil => rfl
    | cons c tail =>
      show scanRefsAux ((c :: tail).length + 1) (c :: tail) = scanRefs tail
      rw [show ((c :: tail).length + 1) = (tail.length + 1) + 1 from by simp]
      rw [scanRefsAux_succ, hm]
      rfl

theorem get_append_mid (p r : List Char) (x : Char) :
    (p ++ x :: r)[p.length]? = some x := by
  rw [List.getElem?_append_right (Nat.le_refl _)]
  simp

theorem drop_after_boundary (p r : List Char) (x : Char) (i : Nat) :
    (p ++ x :: r).drop (p.length + 1 + i) = r.drop i := by
  rw [show p.length + 1 + i = p.length + (i + 1) from by omega]
  rw [List.drop_append]
  exact List.drop_succ_cons

theorem fixLabel_shift_suffix (p r : List Char) (i : Nat) :
    fixLabelBefore r i ↔ fixLabelBefore (p ++ ')' :: r) (p.length + 1 + i) := by
  unfold fixLabelBefore
  by_cases h7 : 7 ≤ i
  · constructor
    · rintro ⟨-, hpre⟩
      refine ⟨by omega, ?_⟩
      rw [show p.length + 1 + i - 7 = p.length + 1 + (i - 7) from by omega,
        drop_after_boundary p r ')' (i - 7)]
      exact hpre
    · rintro ⟨-, hpre⟩
      rw [show p.length + 1 + i - 7 = p.length + 1 + (i - 7) from by omega,
        drop_after_boundary p r ')' (i - 7)] at hpre
      exact ⟨h7, hpre⟩
  · constructor
    · rintro ⟨hc, -⟩
      omega
    · rintro ⟨h7s, hpre⟩
      exfalso
      obtain ⟨q, hq⟩ := isPrefixOf_append _ _ hpre
      have hget1 : ((p ++ ')' :: r).drop (p.length + 1 + i - 7))[6 - i]? = some ')' := by
        rw [List.getElem?_drop,
          show p.length + 1 + i - 7 + (6 - i) = p.length from by omega]
        exact get_append_mid p r ')'
      rw [hq, List.getElem?_append] at hget1
      rw [if_pos (by simp; omega)] at hget1
      interval_cases i <;> exact absurd hget1 (by decide)

theorem fixLabel_shift_one (c : Char) (tail : List Char) (i : Nat)
    (hc : matchCore (tail.drop i) ≠ none)
    (hn7 : "Fixes: ".data.isPrefixOf (c :: tail) = true →
      matchCore ((c :: tail).drop 7) = none) :
    fixLabelBefore tail i ↔ fixLabelBefore (c :: tail) (i + 1) := by
  unfold fixLabelBefore
  by_cases h7 : 7 ≤ i
  · have hdrop : (c :: tail).drop (i + 1 - 7) = tail.drop (i - 7) := by
      rw [show i + 1 - 7 = (i - 7) + 1 from by omega]
      exact List.drop_succ_cons
    rw [hdrop]
    constructor
    · rintro ⟨-, hp⟩
      exact ⟨by omega, hp⟩
    · rintro ⟨-, hp⟩
      exact ⟨h7, hp⟩
  · by_cases h6 : i = 6
    · subst h6
      constructor
      · rintro ⟨hh, -⟩
        omega
      · rintro ⟨-, hp⟩
        exfalso
        rw [show (6 + 1 - 7 : Nat) = 0 from rfl, List.drop_zero] at hp
        have hnone := hn7 hp
        rw [show (c :: tail).drop 7 = tail.drop 6 from rfl] at hnone
        exact hc hnone
    · constructor
      · rintro ⟨hh, -⟩
        omega
      · rintro ⟨hh, -⟩
        omega

theorem scanRefs_sound : ∀ (n : Nat) (s : List Char), s.length ≤ n →
    ∀ e ∈ scanRefs s,
      ∃ i h t r, matchCore (s.drop i) = some (h, t, r) ∧
        e.hash = String.mk h ∧ e.title = String.mk t ∧
        (e.ref_type = RefType.Fix ↔ fixLabelBefore s i) := by
  intro n
  induction n with
  | zero =>
    intro s hs e he
    have hnil : s = [] := List.length_eq_zero.mp (Nat.le_zero.mp hs)
    subst hnil
    simp [show scanRefs [] = [] from rfl] at he
  | succ n ih =>
    intro s hs e he
    rw [scanRefs_eq] at he
    cases hm : matchRef s with
    | some quad =>
      obtain ⟨f, h0, t0, r0⟩ := quad
      rw [hm] at he
      rcases List.mem_cons.mp he with rfl | he'
      · cases f with
        | false =>
          have hc := matchRef_some_note s h0 t0 r0 hm
          refine ⟨0, h0, t0, r0, by simpa using hc, rfl, rfl, ?_⟩
          constructor
          · intro hf
            simp at hf
          · rintro ⟨hh, -⟩
            omega
        | true =>
          obtain ⟨hpre, hc⟩ := matchRef_some_fix s h0 t0 r0 hm
          refine ⟨7, h0, t0, r0, hc, rfl, rfl, ?_⟩
          constructor
          · intro _
            exact ⟨Nat.le_refl 7, by simpa using hpre⟩
          · intro _
            rfl
      · have hlt := matchRef_rest_lt s f h0 t0 r0 hm
        obtain ⟨i', h, t, r, hci, hh, ht, hiff⟩ := ih r0 (by omega) e he'
        obtain ⟨p, hp⟩ := matchRef_decomp s f h0 t0 r0 hm
        refine ⟨p.length + 1 + i', h, t, r, ?_, hh, ht, ?_⟩
        · rw [hp, drop_after_boundary p r0 ')' i']
          exact hci
        · rw [hiff, hp]
          exact fixLabel_shift_suffix p r0 i'
    | none =>
      rw [hm] at he
      obtain ⟨hcn, hn7⟩ := matchRef_none s hm
      cases s with
      | nil => simp at he
      | cons c tail =>
        have htl : tail.length ≤ n := by
          simp only [List.length_cons] at hs
          omega
        obtain ⟨i', h, t, r, hci, hh, ht, hiff⟩ := ih tail htl e he
        refine ⟨i' + 1, h, t, r, ?_, hh, ht, ?_⟩
        · rw [List.drop_succ_cons]
          exact hci
        · rw [hiff]
          exact fixLabel_shift_one c tail i' (by rw [hci]; simp) hn7

theorem matchCore_head_nonhex (c : Char) (l : List Char)
    (hc : isHexDigit c = false) : matchCore (c :: l) = none := by
  unfold matchCore
  dsimp only
  rw [List.takeWhile_cons, hc]
  simp

theorem matchCore_hex1 (c1 c2 : Char) (l : List Char)
    (h1 : isHexDigit c1 = true) (h2 : isHexDigit c2 = false) :
    matchCore (c1 :: c2 :: l) = none := by
  unfold matchCore
  dsimp only
  rw [List.takeWhile_cons, h1, List.takeWhile_cons, h2]
  simp

theorem fixes_prefix_no_core (s : List Char)
    (hpre : "Fixes: ".data.isPrefixOf s = true) :
    ∀ j, j < 7 → matchCore (s.drop j) = none := by
  obtain ⟨q, hq⟩ := isPrefixOf_append _ _ hpre
  subst hq
  intro j hj
  interval_cases j
  · exact matchCore_head_nonhex 'F' _ (by decide)
  · exact matchCore_head_nonhex 'i' _ (by decide)
  · exact matchCore_head_nonhex 'x' _ (by decide)
  · exact matchCore_hex1 'e' 's' _ (by decide) (by decide)
  · exact matchCore_head_nonhex 's' _ (by decide)
  · exact matchCore_head_nonhex ':' _ (by decide)
  · exact matchCore_head_nonhex ' ' _ (by decide)

theorem scanRefs_leftmost : ∀ (n : Nat) (s : List Char), s.length ≤ n →
    ∀ (i : Nat) (h t r : List Char),
      matchCore (s.drop i) = some (h, t, r) →
      (∀ j, j < i → matchCore (s.drop j) = none) →
      ∃ e ∈ scanRefs s, e.hash = String.mk h ∧ e.title = String.mk t ∧
        (e.ref_type = RefType.Fix ↔ fixLabelBefore s i) := by
  intro n
  induction n with
  | zero =>
    intro s hs i h t r hci _
    have hnil : s = [] := List.length_eq_zero.mp (Nat.le_zero.mp hs)
    subst hnil
    rw [List.drop_nil] at hci
    exact absurd hci (by simp [matchCore])
  | succ n ih =>
    intro s hs i h t r hci hleft
    rw [scanRefs_eq]
    cases hm : matchRef s with
    | some quad =>
      obtain ⟨f, h0, t0, r0⟩ := quad
      cases f with
      | false =>
        have hc0 := matchRef_some_note s h0 t0 r0 hm
        cases i with
        | zero =>
          rw [List.drop_zero] at hci
          rw [hci] at hc0
          simp only [Option.some.injEq, Prod.mk.injEq] at hc0
          obtain ⟨rfl, rfl, rfl⟩ := hc0
          refine ⟨_, List.mem_cons_self _ _, rfl, rfl, ?_⟩
          constructor
          · intro hf
            simp at hf
          · rintro ⟨hh, -⟩
            omega
        | succ i' =>
          have := hleft 0 (by omega)
          rw [List.drop_zero] at this
          exact absurd hc0 (by rw [this]; simp)
      | true =>
        obtain ⟨hpre, hc7⟩ := matchRef_some_fix s h0 t0 r0 hm
        rcases Nat.lt_trichotomy i 7 with hlt7 | heq7 | hgt7
        · exact absurd hci (by rw [fixes_prefix_no_core s hpre i hlt7]; simp)
        · subst heq7
          rw [hci] at hc7
          simp only [Option.some.injEq, Prod.mk.injEq] at hc7
          obtain ⟨rfl, rfl, rfl⟩ := hc7
          refine ⟨_, List.mem_cons_self _ _, rfl, rfl, ?_⟩
          constructor
          · intro _
            exact ⟨Nat.le_refl 7, by simpa using hpre⟩
          · intro _
            rfl
        · have := hleft 7 hgt7
          exact absurd hc7 (by rw [this]; simp)
    | none =>
      obtain ⟨hcn, hn7⟩ := matchRef_none s hm
      cases s with
      | nil =>
        rw [List.drop_nil] at hci
        exact absurd hci (by simp [matchCore])
      | cons c tail =>
        cases i with
        | zero =>
          rw [List.drop_zero] at hci
          exact absurd hci (by rw [hcn]; simp)
        | succ i' =>
          have htl : tail.length ≤ n := by
            simp only [List.length_cons] at hs
            omega
          rw [List.drop_succ_cons] at hci
          have hleft' : ∀ j, j < i' → matchCore (tail.drop j) = none := by
            intro j hj
            have := hleft (j + 1) (by omega)
            rw [List.drop_succ_cons] at this
            exact this
          obtain ⟨e, hemem, hh, ht, hiff⟩ := ih tail htl i' h t r hci hleft'
          refine ⟨e, hemem, hh, ht, ?_⟩
          rw [hiff]
          exact fixLabel_shift_one c tail i' (by rw [hci]; simp) hn7

/-- Claim C7 as stated is false: a hex run of length 9 contains a
length-8 candidate starting one character later, a substring of the
required form that yields no mention of its own (the scan's matches do
not overlap). -/
theorem c7_counterexample :
    ¬ (∀ (c : CommitData) (msg : String) (entries : List RefEntry),
        c.message = some msg → extract_references c = some entries →
        ∀ (i : Nat) (h t r : List Char),
          matchCore ((flattenMsg msg).data.drop i) = some (h, t, r) →
          ∃ e ∈ entries, e.hash = String.mk h ∧ e.title = String.mk t ∧
            (e.ref_type = RefType.Fix ↔ fixLabelBefore (flattenMsg msg).data i)) := by
  intro H
  have h1 : matchCore ((flattenMsg "123456789 (\"t\")").data.drop 1) =
      some ("23456789".data, "t".data, []) := by decide
  have h2 : extract_references exCommitOverlap =
      some [⟨"123456789", "t", RefType.Note⟩] := by decide
  obtain ⟨e, hmem, hhash, -, -⟩ :=
    H exCommitOverlap "123456789 (\"t\")" _ rfl h2 1 _ _ _ h1
  rcases List.mem_singleton.mp hmem with rfl
  exact absurd hhash (by decide)

/-- Claim C7 (amended): the extracted mentions are the scan's successive
leftmost non-overlapping matches.  Every extracted mention arises from a
substring of the form `hex{8,} ?("title")` at some position, with the hex
run as hash and the quoted text as title, typed `Fix` exactly when the
substring is immediately preceded by `Fixes: `; conversely a leftmost
such substring (no earlier candidate) always yields a mention, while a
candidate overlapping an earlier match may be skipped. -/
theorem c7_scan_extraction (c : CommitData) (msg : String) (entries : List RefEntry)
    (hm : c.message = some msg) (he : extract_references c = some entries) :
    entries = scanRefs (flattenMsg msg).data ++ (extract_revert c).toList ∧
    (∀ e ∈ scanRefs (flattenMsg msg).data,
      ∃ i h t r, matchCore ((flattenMsg msg).data.drop i) = some (h, t, r) ∧
        e.hash = String.mk h ∧ e.title = String.mk t ∧
        (e.ref_type = RefType.Fix ↔ fixLabelBefore (flattenMsg msg).data i)) ∧
    (∀ (i : Nat) (h t r : List Char),
      matchCore ((flattenMsg msg).data.drop i) = some (h, t, r) →
      (∀ j, j < i → matchCore ((flattenMsg msg).data.drop j) = none) →
      ∃ e ∈ scanRefs (flattenMsg msg).data, e.hash = String.mk h ∧
        e.title = String.mk t ∧
        (e.ref_type = RefType.Fix ↔ fixLabelBefore (flattenMsg msg).data i)) := by
  refine ⟨?_,
    fun e he' => scanRefs_sound (flattenMsg msg).data.length _ (Nat.le_refl _) e he',
    fun i h t r hc hl =>
      scanRefs_leftmost (flattenMsg msg).data.length _ (Nat.le_refl _) i h t r hc hl⟩
  unfold extract_references at he
  rw [hm] at he
  exact (Option.some.inj he).symm

/-- Witness for the amended C7 at a concrete labelled mention. -/
theorem c7_scan_extraction_witness :
    extract_references exCommitFixes = some [⟨"aaaaaaaa11", "T", RefType.Fix⟩] ∧
    (([⟨"aaaaaaaa11", "T", RefType.Fix⟩] : List RefEntry) =
      scanRefs (flattenMsg "Fixes: aaaaaaaa11 (\"T\")").data ++
        (extract_revert exCommitFixes).toList ∧
    (∀ e ∈ scanRefs (flattenMsg "Fixes: aaaaaaaa11 (\"T\")").data,
      ∃ i h t r,
        matchCore ((flattenMsg "Fixes: aaaaaaaa11 (\"T\")").data.drop i) =
          some (h, t, r) ∧
        e.hash = String.mk h ∧ e.title = String.mk t ∧
        (e.ref_type = RefType.Fix ↔
          fixLabelBefore (flattenMsg "Fixes: aaaaaaaa11 (\"T\")").data i)) ∧
    (∀ (i : Nat) (h t r : List Char),
      matchCore ((flattenMsg "Fixes: aaaaaaaa11 (\"T\")").data.drop i) =
        some (h, t, r) →
      (∀ j, j < i →
        matchCore ((flattenMsg "Fixes: aaaaaaaa11 (\"T\")").data.drop j) = none) →
      ∃ e ∈ scanRefs (flattenMsg "Fixes: aaaaaaaa11 (\"T\")").data,
        e.hash = String.mk h ∧ e.title = String.mk t ∧
        (e.ref_type = RefType.Fix ↔
          fixLabelBefore (flattenMsg "Fixes: aaaaaaaa11 (\"T\")").data i))) := by
  have he : extract_references exCommitFixes =
      some [⟨"aaaaaaaa11", "T", RefType.Fix⟩] := by decide
  exact ⟨he, c7_scan_extraction exCommitFixes "Fixes: aaaaaaaa11 (\"T\")" _ rfl he⟩
